import Mathlib

/-!
# Verification of the Arabic OCR → Word pipeline (`src/streamlit_app.py`)

Shallow embedding of the OCR-result normalization and RTL document
reconstruction pipeline.  Text is modelled as `List Char`; Python's
`str.strip` / `str.join` are translated explicitly; the external shaping
(`arabic_reshaper.reshape`) and bidi (`bidi.algorithm.get_display`)
libraries are treated as parameters `shape display : Txt → Txt` of the
pipeline, with small executable models (built from the spec's description
of the algorithms) used to instantiate them on concrete inputs.
-/

set_option autoImplicit false

namespace ArabicOcr

/-- Text is a list of characters (Python `str`). -/
abbrev Txt := List Char

/-- Whitespace predicate used by `str.strip`. -/
def isWs (c : Char) : Bool := c.isWhitespace

/-- Python `s.strip()`: remove leading and trailing whitespace. -/
def strip (s : Txt) : Txt :=
  ((s.dropWhile isWs).reverse.dropWhile isWs).reverse

/-- Python `sep.join(xs)`. -/
def joinSep (sep : Txt) : List Txt → Txt
  | [] => []
  | [s] => s
  | s :: t :: rest => s ++ sep ++ joinSep sep (t :: rest)

/-- First character exists and is not whitespace. -/
def headNonWs : Txt → Bool
  | [] => false
  | c :: _ => !isWs c

/-- A "good" line: non-empty with non-whitespace first and last character.
Every line produced by the recognition adapter is good, being the
non-empty result of `str.strip` (see `extractLine_good`). -/
def goodLineB (l : Txt) : Bool := headNonWs l && headNonWs l.reverse

/-! ## Recognition adapter (`run_ocr_on_image`, src lines 52–78)

One entry of the engine's native result is typically `[[box], [text, conf]]`;
the code reads `line[1][0]` inside a `try`, skipping entries whose structure
is unexpected (or whose text is not a `str`), which we model with the
`malformed` constructor.  The bounding box and the confidence are never
read past that point. -/

inductive NativeLine
  | ok (box : Unit) (text : Txt) (conf : ℚ)
  | malformed
  deriving DecidableEq

/-- The body of the `for line in result` loop (src lines 66–73): take
`line[1][0]`, keep it stripped when it is a non-empty string, skip the
line on any structural failure. -/
def extractLine : NativeLine → Option Txt
  | .ok _ t _ => let t' := strip t; if t'.isEmpty then none else some t'
  | .malformed => none

/-- The whole extraction loop over the native result. -/
def extractLines (native : List NativeLine) : List Txt :=
  native.filterMap extractLine

/-- An engine-level failure: `ocr.ocr` raising. -/
inductive EngineError
  | engineFailure
  deriving DecidableEq

/-- Observable outcome of one `run_ocr_on_image` call: the returned lines
(or the propagated exception) together with whether the temporary image
file was unlinked. -/
structure OcrOutcome where
  result : Except EngineError (List Txt)
  tempReleased : Bool

/-- `run_ocr_on_image` (src lines 52–78).  The engine call is modelled by
its outcome: `.error e` when `ocr.ocr` raises, `.ok none` when it returns
`None` (the `or []` fallback, src line 64), `.ok (some native)` otherwise.
The `try`/`finally` (src lines 63–76) unlinks the temporary file on both
exit paths; an engine exception is re-raised after the `finally` block,
i.e. the error is propagated in `result`. -/
def run_ocr_on_image (engineCall : Except EngineError (Option (List NativeLine))) :
    OcrOutcome :=
  match engineCall with
  | .error e => { result := .error e, tempReleased := true }
  | .ok r => { result := .ok (extractLines (r.getD [])), tempReleased := true }

/-! ## Document model and `add_arabic_paragraph` (src lines 81–96) -/

inductive Alignment
  | left | center | right
  deriving DecidableEq

/-- Paragraph-level formatting applied by `add_arabic_paragraph`. -/
structure FormattingSpec where
  rightToLeft : Bool
  alignment : Alignment
  lineSpacing : ℚ
  fontSizePt : ℚ
  fontName : String
  deriving DecidableEq

/-- The code sets a single primary font (src line 96, `"Arabic
Typesetting"`), relying on the word processor for further fallback; the
chain therefore has this one declared entry. -/
def fontFallbackChain : List String := ["Arabic Typesetting"]

/-- The constant formatting of src lines 89–96: `right_to_left = True`,
`alignment = RIGHT`, `line_spacing = 1.15`, `Pt(12)`, font name
`"Arabic Typesetting"`. -/
def arabicFormatting : FormattingSpec :=
  { rightToLeft := true
    alignment := .right
    lineSpacing := 1.15
    fontSizePt := 12
    fontName := "Arabic Typesetting" }

/-- Abstract document items: the heading added at src line 143 (which
receives none of the paragraph formatting), the formatted paragraphs of
`add_arabic_paragraph`, and page breaks. -/
inductive DocItem
  | heading (text : Txt) (level : Nat)
  | para (text : Txt) (fmt : FormattingSpec)
  | pageBreak
  deriving DecidableEq

/-- `add_arabic_paragraph` (src lines 81–96): reshape, bidi-reorder, then
add a paragraph carrying the constant formatting. -/
def add_arabic_paragraph (shape display : Txt → Txt) (text : Txt) : DocItem :=
  .para (display (shape text)) arabicFormatting

/-! ## The per-page loop (src lines 147–164) -/

/-- `"\n".join(page_lines).strip()` (src line 151). -/
def page_text (page_lines : List Txt) : Txt :=
  strip (joinSep ['\n'] page_lines)

/-- The `"— Page {page_num} —"` header of src lines 154/164. -/
def pageHeader (pageNum : Nat) : Txt :=
  "— Page ".data ++ (Nat.repr pageNum).data ++ " —".data

/-- The literal no-text marker of src line 164. -/
def markerText : Txt := "[No text detected]".data

/-- Items appended to the document for one page (src lines 153–164):
one paragraph per line and a page break when `page_num < len(images)`,
all of it only in the `if page_text:` branch; the `else` branch appends
nothing to the document. -/
def pageItems (shape display : Txt → Txt) (n pageNum : Nat)
    (page_lines : List Txt) : List DocItem :=
  if (page_text page_lines).isEmpty then []
  else
    page_lines.map (add_arabic_paragraph shape display) ++
      (if pageNum < n then [.pageBreak] else [])

/-- The transcript segment appended for one page (src lines 154/164). -/
def pageSegment (pageNum : Nat) (page_lines : List Txt) : Txt :=
  if (page_text page_lines).isEmpty then
    pageHeader pageNum ++ '\n' :: markerText
  else
    pageHeader pageNum ++ '\n' :: page_text page_lines

/-- The document items produced by the loop over `enumerate(images, 1)`
(src lines 147–164), for pages numbered from `pageNum` with
`n = len(images)`. -/
def docBody (shape display : Txt → Txt) (n pageNum : Nat) :
    List (List Txt) → List DocItem
  | [] => []
  | pl :: rest =>
    pageItems shape display n pageNum pl ++ docBody shape display n (pageNum + 1) rest

/-- `all_page_texts` accumulated by the same loop. -/
def all_page_texts (pageNum : Nat) : List (List Txt) → List Txt
  | [] => []
  | pl :: rest => pageSegment pageNum pl :: all_page_texts (pageNum + 1) rest

/-- The whole assembled document: the heading of src line 143 followed by
the per-page items, given the per-page recognized line lists. -/
def docAssemble (shape display : Txt → Txt) (fileName : Txt)
    (pages : List (List Txt)) : List DocItem :=
  .heading ("Extracted from: ".data ++ fileName) 1 ::
    docBody shape display pages.length 1 pages

/-- `combined_text = "\n\n".join(all_page_texts).strip()` (src line 186). -/
def combined_text (pages : List (List Txt)) : Txt :=
  strip (joinSep "\n\n".data (all_page_texts 1 pages))

/-- Count of page breaks in a document item list. -/
def isBreak : DocItem → Bool
  | .pageBreak => true
  | _ => false

def countBreaks (items : List DocItem) : Nat := items.countP isBreak

/-! ## Whole-document processing with per-page engine outcomes

The module-level loop calls `run_ocr_on_image` with no surrounding
`try`, so an engine exception propagates out of the loop and no document
or transcript is produced. -/

def processPages (shape display : Txt → Txt) (n pageNum : Nat) :
    List (Except EngineError (Option (List NativeLine))) →
      Except EngineError (List DocItem × List Txt)
  | [] => .ok ([], [])
  | ec :: rest =>
    match (run_ocr_on_image ec).result with
    | .error e => .error e
    | .ok page_lines =>
      match processPages shape display n (pageNum + 1) rest with
      | .error e => .error e
      | .ok (items, texts) =>
        .ok (pageItems shape display n pageNum page_lines ++ items,
             pageSegment pageNum page_lines :: texts)

/-- End-to-end run for one uploaded file: heading, per-page processing,
combined transcript; an engine exception on any page aborts the whole
run. -/
def processDocument (shape display : Txt → Txt) (fileName : Txt)
    (ecs : List (Except EngineError (Option (List NativeLine)))) :
    Except EngineError (List DocItem × Txt) :=
  match processPages shape display ecs.length 1 ecs with
  | .error e => .error e
  | .ok (items, texts) =>
    .ok (.heading ("Extracted from: ".data ++ fileName) 1 :: items,
         strip (joinSep "\n\n".data texts))

/-! ## Executable models of the external shaping and bidi libraries

`arabic_reshaper.reshape` and `bidi.algorithm.get_display` are third-party
collaborators, not part of this repository; concrete instantiations of the
`shape`/`display` parameters are modelled from the spec (§4.2). -/

/-- Arabic-range characters (the main Arabic blocks plus the presentation
forms produced by shaping). -/
def isArabicChar (c : Char) : Bool :=
  (0x0600 ≤ c.toNat && c.toNat ≤ 0x06FF) ||
  (0x0750 ≤ c.toNat && c.toNat ≤ 0x077F) ||
  (0xFB50 ≤ c.toNat && c.toNat ≤ 0xFDFF) ||
  (0xFE70 ≤ c.toNat && c.toNat ≤ 0xFEFF)

/-- Modelled from the spec: the presentation-form table of contextual
shaping (§4.2, "Arabic letters have up to four joined forms"), for a small
set of letters — alef (U+0627), beh (U+0628), seen (U+0633), lam (U+0644)
and meem (U+0645).  For each, `(isolated, final, initial, medial)` forms;
alef never connects to a following letter, so its initial/medial entries
fall back to the isolated/final forms. -/
def presForms (c : Char) : Option (Char × Char × Char × Char) :=
  if c = Char.ofNat 0x0627 then
    some (Char.ofNat 0xFE8D, Char.ofNat 0xFE8E, Char.ofNat 0xFE8D, Char.ofNat 0xFE8E)
  else if c = Char.ofNat 0x0628 then
    some (Char.ofNat 0xFE8F, Char.ofNat 0xFE90, Char.ofNat 0xFE91, Char.ofNat 0xFE92)
  else if c = Char.ofNat 0x0633 then
    some (Char.ofNat 0xFEB1, Char.ofNat 0xFEB2, Char.ofNat 0xFEB3, Char.ofNat 0xFEB4)
  else if c = Char.ofNat 0x0644 then
    some (Char.ofNat 0xFEDD, Char.ofNat 0xFEDE, Char.ofNat 0xFEDF, Char.ofNat 0xFEE0)
  else if c = Char.ofNat 0x0645 then
    some (Char.ofNat 0xFEE1, Char.ofNat 0xFEE2, Char.ofNat 0xFEE3, Char.ofNat 0xFEE4)
  else none

/-- Whether a letter connects to the following letter (dual-joining);
alef does not. -/
def connectsForward (c : Char) : Bool :=
  (presForms c).isSome && c ≠ Char.ofNat 0x0627

/-- Whether a letter accepts a connection from the preceding letter. -/
def joinsPrev (c : Char) : Bool := (presForms c).isSome

/-- Glyph choice for one character given whether the previous character
connects forward to it and whether the next character joins back. -/
def shapeGlyph (prevConn : Bool) (c : Char) (nextJoins : Bool) : Char :=
  match presForms c with
  | some f =>
    if prevConn then
      (if nextJoins && connectsForward c then f.2.2.2 else f.2.1)
    else
      (if nextJoins && connectsForward c then f.2.2.1 else f.1)
  | none => c

/-- Modelled from the spec: contextual shaping (§4.2 stage 1).  Walks the
string tracking whether the previous character connects forward; letters
adjacent to non-joining characters fall back to isolated/initial/final
forms; non-Arabic characters are untouched ("a no-op for non-Arabic
glyphs"). -/
def shapeChars (prevConn : Bool) : List Char → List Char
  | [] => []
  | c :: rest =>
    shapeGlyph prevConn c
        (match rest.head? with
         | some d => joinsPrev d
         | none => false) ::
      shapeChars (connectsForward c) rest

/-- The modelled `arabic_reshaper.reshape`. -/
def shapeModel (s : Txt) : Txt := shapeChars false s

/-- Strong right-to-left characters (Arabic). -/
def bidiR (c : Char) : Bool := isArabicChar c

/-- Strong left-to-right characters (Latin letters). -/
def bidiL (c : Char) : Bool :=
  (0x41 ≤ c.toNat && c.toNat ≤ 0x5A) || (0x61 ≤ c.toNat && c.toNat ≤ 0x7A)

/-- First strong directional character: `some true` for R, `some false`
for L, `none` when the string has no strong character. -/
def firstStrong : List Char → Option Bool
  | [] => none
  | c :: rest =>
    if bidiR c then some true else if bidiL c then some false else firstStrong rest

/-- Paragraph embedding level from the first strong character (UBA rules
P2/P3, as `get_display` does by default): 1 for an RTL paragraph, else 0. -/
def baseLevel (s : Txt) : Nat :=
  match firstStrong s with
  | some true => 1
  | _ => 0

/-- Resolved embedding level of one character (simplified W/N rules:
neutrals take the paragraph level). -/
def charLevel (base : Nat) (c : Char) : Nat :=
  if bidiR c then 1
  else if bidiL c then (if base = 1 then 2 else 0)
  else base

/-- Reverse every maximal run of entries with level ≥ `k` (one pass of UBA
rule L2).  `acc` holds the current run, reversed. -/
def revRunsAux (k : Nat) (acc : List (Char × Nat)) : List (Char × Nat) → List (Char × Nat)
  | [] => acc
  | x :: rest =>
    if k ≤ x.2 then revRunsAux k (x :: acc) rest
    else acc ++ x :: revRunsAux k [] rest

def revRuns (k : Nat) (l : List (Char × Nat)) : List (Char × Nat) :=
  revRunsAux k [] l

/-- Modelled from the spec: bidirectional reordering (§4.2 stage 2,
Unicode Bidi Algorithm).  Levels are resolved per character and rule L2
reverses runs from the highest level (2) down to 1. -/
def displayModel (s : Txt) : Txt :=
  (revRuns 1 (revRuns 2 (s.map fun c => (c, charLevel (baseLevel s) c)))).map Prod.fst

/-! ## Spec-side transcript definitions (for the refinement claims)

These two definitions follow the words of the spec/claims, to be compared
with `combined_text` above, which is translated from the source. -/

/-- Spec-side segment for one page, per claim C3's words: the header line,
then the page's shaped-and-reordered lines joined with newlines, or the
no-text marker when the page has no text (`has_text = lines ≠ []`). -/
def specSegmentShaped (shape display : Txt → Txt) (pageNum : Nat)
    (page_lines : List Txt) : Txt :=
  if page_lines.isEmpty then
    pageHeader pageNum ++ '\n' :: markerText
  else
    pageHeader pageNum ++ '\n' ::
      joinSep ['\n'] (page_lines.map fun l => display (shape l))

def specSegmentsShaped (shape display : Txt → Txt) (pageNum : Nat) :
    List (List Txt) → List Txt
  | [] => []
  | pl :: rest =>
    specSegmentShaped shape display pageNum pl ::
      specSegmentsShaped shape display (pageNum + 1) rest

/-- Spec-side transcript per claim C3: per-page segments with shaped
lines, consecutive pages separated by one blank line. -/
def specTranscriptShaped (shape display : Txt → Txt) (pages : List (List Txt)) : Txt :=
  joinSep "\n\n".data (specSegmentsShaped shape display 1 pages)

/-- Segment for one page with the page's raw recognized (stripped) lines,
per the amended claim C3. -/
def specSegmentRaw (pageNum : Nat) (page_lines : List Txt) : Txt :=
  if page_lines.isEmpty then
    pageHeader pageNum ++ '\n' :: markerText
  else
    pageHeader pageNum ++ '\n' :: joinSep ['\n'] page_lines

def specSegmentsRaw (pageNum : Nat) : List (List Txt) → List Txt
  | [] => []
  | pl :: rest => specSegmentRaw pageNum pl :: specSegmentsRaw (pageNum + 1) rest

/-- Amended-claim transcript: per-page segments with the raw recognized
lines, consecutive pages separated by one blank line. -/
def specTranscriptRaw (pages : List (List Txt)) : Txt :=
  joinSep "\n\n".data (specSegmentsRaw 1 pages)

/-! ## Helper lemmas about stripped strings and joins -/

lemma head?_append_left (a b : Txt) (h : a ≠ []) : (a ++ b).head? = a.head? := by
  cases a with
  | nil => exact absurd rfl h
  | cons c t => rfl

lemma getLast?_append_right (a b : Txt) (h : b ≠ []) :
    (a ++ b).getLast? = b.getLast? := by
  rw [← List.head?_reverse, List.reverse_append,
    head?_append_left _ _ (by simpa using h), List.head?_reverse]

lemma dropWhile_suffix' (p : Char → Bool) : ∀ l : Txt, l.dropWhile p <:+ l := by
  intro l
  induction l with
  | nil => exact List.suffix_rfl
  | cons a t ih =>
    rw [List.dropWhile_cons]
    by_cases hp : p a = true
    · rw [if_pos hp]
      exact ih.trans (List.suffix_cons a t)
    · rw [if_neg hp]

lemma head?_dropWhile (p : Char → Bool) :
    ∀ (l : Txt) (c : Char), (l.dropWhile p).head? = some c → p c = false := by
  intro l
  induction l with
  | nil => intro c hc; cases hc
  | cons a t ih =>
    intro c hc
    rw [List.dropWhile_cons] at hc
    by_cases hp : p a = true
    · rw [if_pos hp] at hc
      exact ih c hc
    · rw [if_neg hp] at hc
      cases hc
      simp only [Bool.not_eq_true] at hp
      exact hp

lemma getLast?_dropWhile (p : Char → Bool) (l : Txt) (h : l.dropWhile p ≠ []) :
    (l.dropWhile p).getLast? = l.getLast? := by
  obtain ⟨pre, hpre⟩ := dropWhile_suffix' p l
  conv_rhs => rw [← hpre]
  rw [getLast?_append_right pre _ h]

lemma strip_head? (l : Txt) : ∀ c, (strip l).head? = some c → isWs c = false := by
  intro c hc
  unfold strip at hc
  rw [List.head?_reverse] at hc
  by_cases hnil : (l.dropWhile isWs).reverse.dropWhile isWs = []
  · rw [hnil] at hc; cases hc
  · rw [getLast?_dropWhile isWs _ hnil, List.getLast?_reverse] at hc
    exact head?_dropWhile isWs _ c hc

lemma strip_getLast? (l : Txt) : ∀ c, (strip l).getLast? = some c → isWs c = false := by
  intro c hc
  unfold strip at hc
  rw [List.getLast?_reverse] at hc
  exact head?_dropWhile isWs _ c hc

lemma strip_eq_self (l : Txt) (h1 : ∀ c, l.head? = some c → isWs c = false)
    (h2 : ∀ c, l.getLast? = some c → isWs c = false) : strip l = l := by
  have e1 : l.dropWhile isWs = l := by
    cases l with
    | nil => rfl
    | cons c t =>
      rw [List.dropWhile_cons, h1 c rfl]
      simp
  unfold strip
  rw [e1]
  have e2 : l.reverse.dropWhile isWs = l.reverse := by
    cases hr : l.reverse with
    | nil => rfl
    | cons c t =>
      have hcl : l.getLast? = some c := by
        rw [← List.head?_reverse, hr]; rfl
      rw [List.dropWhile_cons, h2 c hcl]
      simp
  rw [e2, List.reverse_reverse]

lemma goodLineB_ne_nil (l : Txt) (h : goodLineB l = true) : l ≠ [] := by
  intro hemp
  subst hemp
  exact absurd h (by decide)

lemma goodLineB_head? (l : Txt) (h : goodLineB l = true) :
    ∀ c, l.head? = some c → isWs c = false := by
  intro c hc
  unfold goodLineB at h
  rw [Bool.and_eq_true] at h
  cases l with
  | nil => cases hc
  | cons a t =>
    cases hc
    have h1 : (!isWs c) = true := h.1
    simpa using h1

lemma goodLineB_getLast? (l : Txt) (h : goodLineB l = true) :
    ∀ c, l.getLast? = some c → isWs c = false := by
  intro c hc
  unfold goodLineB at h
  rw [Bool.and_eq_true] at h
  rw [← List.head?_reverse] at hc
  cases hr : l.reverse with
  | nil => rw [hr] at hc; cases hc
  | cons a t =>
    rw [hr] at hc
    cases hc
    have h2 : headNonWs l.reverse = true := h.2
    rw [hr] at h2
    have h2' : (!isWs c) = true := h2
    simpa using h2'

lemma goodLineB_intro (l : Txt) (hne : l ≠ [])
    (h1 : ∀ c, l.head? = some c → isWs c = false)
    (h2 : ∀ c, l.getLast? = some c → isWs c = false) : goodLineB l = true := by
  unfold goodLineB
  rw [Bool.and_eq_true]
  constructor
  · cases l with
    | nil => exact absurd rfl hne
    | cons a t =>
      show (!isWs a) = true
      rw [h1 a rfl]
      rfl
  · cases hr : l.reverse with
    | nil => exact absurd (List.reverse_eq_nil_iff.mp hr) hne
    | cons a t =>
      show (!isWs a) = true
      rw [h2 a (by rw [← List.head?_reverse, hr]; rfl)]
      rfl

/-- The adapter only emits good lines: a line it returns is the non-empty
result of `text.strip()`. -/
lemma extractLine_good (nl : NativeLine) (l : Txt) (h : extractLine nl = some l) :
    goodLineB l = true := by
  cases nl with
  | malformed => cases h
  | ok b t c =>
    simp only [extractLine] at h
    by_cases hE : (strip t).isEmpty = true
    · rw [if_pos hE] at h; cases h
    · rw [if_neg hE] at h
      cases h
      refine goodLineB_intro _ ?_ (strip_head? t) (strip_getLast? t)
      intro hemp
      rw [hemp] at hE
      exact hE rfl

lemma joinSep_good (sep : Txt) : ∀ segs : List Txt, segs ≠ [] →
    (∀ s ∈ segs, goodLineB s = true) → goodLineB (joinSep sep segs) = true := by
  intro segs
  induction segs with
  | nil => intro h _; exact absurd rfl h
  | cons s rest ih =>
    intro _ hall
    have hs := hall s (List.mem_cons_self s rest)
    cases rest with
    | nil => exact hs
    | cons t rest' =>
      have hJ := ih (List.cons_ne_nil t rest') fun x hx => hall x (List.mem_cons_of_mem _ hx)
      have hstep : joinSep sep (s :: t :: rest') =
          (s ++ sep) ++ joinSep sep (t :: rest') := rfl
      rw [hstep]
      refine goodLineB_intro _ ?_ ?_ ?_
      · intro hemp
        exact goodLineB_ne_nil _ hJ (List.append_eq_nil.mp hemp).2
      · intro c hc
        have hsne : s ≠ [] := goodLineB_ne_nil _ hs
        have hsse : s ++ sep ≠ [] := fun hemp => hsne (List.append_eq_nil.mp hemp).1
        rw [head?_append_left _ _ hsse, head?_append_left _ _ hsne] at hc
        exact goodLineB_head? _ hs c hc
      · intro c hc
        rw [getLast?_append_right _ _ (goodLineB_ne_nil _ hJ)] at hc
        exact goodLineB_getLast? _ hJ c hc

lemma strip_joinSep (sep : Txt) (segs : List Txt)
    (h : ∀ s ∈ segs, goodLineB s = true) :
    strip (joinSep sep segs) = joinSep sep segs := by
  cases segs with
  | nil => rfl
  | cons s rest =>
    have hg := joinSep_good sep (s :: rest) (List.cons_ne_nil s rest) h
    exact strip_eq_self _ (goodLineB_head? _ hg) (goodLineB_getLast? _ hg)

lemma page_text_eq (pl : List Txt) (h : ∀ l ∈ pl, goodLineB l = true) :
    page_text pl = joinSep ['\n'] pl :=
  strip_joinSep ['\n'] pl h

lemma page_text_isEmpty_eq (pl : List Txt) (h : ∀ l ∈ pl, goodLineB l = true) :
    (page_text pl).isEmpty = pl.isEmpty := by
  cases pl with
  | nil => rfl
  | cons l rest =>
    rw [page_text_eq _ h]
    have hl : l ≠ [] := goodLineB_ne_nil _ (h l (List.mem_cons_self l rest))
    cases rest with
    | nil =>
      cases l with
      | nil => exact absurd rfl hl
      | cons c t => rfl
    | cons m rest' =>
      cases l with
      | nil => exact absurd rfl hl
      | cons c t => rfl

lemma pageHeader_head? (i : Nat) : (pageHeader i).head? = some '—' := by
  have hC : ("— Page ".data : Txt) ≠ [] := by decide
  have hCA : ("— Page ".data ++ (Nat.repr i).data : Txt) ≠ [] := by
    intro hemp
    exact hC (List.append_eq_nil.mp hemp).1
  unfold pageHeader
  rw [head?_append_left _ _ hCA, head?_append_left _ _ hC]
  rfl

lemma pageHeader_ne_nil (i : Nat) : pageHeader i ≠ [] := by
  intro hemp
  have hh := pageHeader_head? i
  rw [hemp] at hh
  cases hh

lemma goodLineB_pageSegment (i : Nat) (pl : List Txt) :
    goodLineB (pageSegment i pl) = true := by
  have hh : (pageSegment i pl).head? = some '—' := by
    unfold pageSegment
    split
    · rw [head?_append_left _ _ (pageHeader_ne_nil i)]
      exact pageHeader_head? i
    · rw [head?_append_left _ _ (pageHeader_ne_nil i)]
      exact pageHeader_head? i
  have hlast : ∀ c, (pageSegment i pl).getLast? = some c → isWs c = false := by
    intro c hc
    unfold pageSegment at hc
    by_cases hE : (page_text pl).isEmpty = true
    · rw [if_pos hE, getLast?_append_right _ _ (List.cons_ne_nil _ _)] at hc
      have hm : (('\n' :: markerText) : Txt).getLast? = some ']' := rfl
      rw [hm] at hc
      cases hc
      decide
    · rw [if_neg hE, getLast?_append_right _ _ (List.cons_ne_nil _ _)] at hc
      have hne : page_text pl ≠ [] := by
        intro hemp
        rw [hemp] at hE
        exact hE rfl
      have hsplit : (('\n' :: page_text pl) : Txt) = ['\n'] ++ page_text pl := rfl
      rw [hsplit, getLast?_append_right _ _ hne] at hc
      exact strip_getLast? (joinSep ['\n'] pl) c hc
  refine goodLineB_intro _ ?_ ?_ hlast
  · intro hemp
    rw [hemp] at hh
    cases hh
  · intro c hc
    rw [hh] at hc
    cases hc
    decide

lemma pageSegment_eq_raw (i : Nat) (pl : List Txt)
    (h : ∀ l ∈ pl, goodLineB l = true) :
    pageSegment i pl = specSegmentRaw i pl := by
  unfold pageSegment specSegmentRaw
  rw [page_text_isEmpty_eq pl h]
  by_cases hE : pl.isEmpty = true
  · rw [if_pos hE, if_pos hE]
  · rw [if_neg hE, if_neg hE, page_text_eq pl h]

lemma all_page_texts_good : ∀ (pages : List (List Txt)) (j : Nat),
    ∀ s ∈ all_page_texts j pages, goodLineB s = true := by
  intro pages
  induction pages with
  | nil => intro j s hs; cases hs
  | cons pl rest ih =>
    intro j s hs
    rcases List.mem_cons.mp hs with rfl | hs'
    · exact goodLineB_pageSegment j pl
    · exact ih (j + 1) s hs'

/-- The final `.strip()` on the transcript is always a no-op: every
segment starts with the header dash and ends with a non-whitespace
character. -/
lemma combined_text_eq_joinSep (pages : List (List Txt)) :
    combined_text pages = joinSep "\n\n".data (all_page_texts 1 pages) := by
  unfold combined_text
  exact strip_joinSep _ _ (all_page_texts_good pages 1)

lemma all_page_texts_eq_raw : ∀ (pages : List (List Txt)) (j : Nat),
    (∀ pl ∈ pages, ∀ l ∈ pl, goodLineB l = true) →
    all_page_texts j pages = specSegmentsRaw j pages := by
  intro pages
  induction pages with
  | nil => intro j _; rfl
  | cons pl rest ih =>
    intro j h
    simp only [all_page_texts, specSegmentsRaw]
    rw [pageSegment_eq_raw j pl (h pl (List.mem_cons_self pl rest)),
      ih (j + 1) fun pl' h' => h pl' (List.mem_cons_of_mem _ h')]

lemma all_page_texts_length : ∀ (pages : List (List Txt)) (j : Nat),
    (all_page_texts j pages).length = pages.length := by
  intro pages
  induction pages with
  | nil => intro j; rfl
  | cons pl rest ih =>
    intro j
    simp only [all_page_texts, List.length_cons, ih (j + 1)]

lemma all_page_texts_get? : ∀ (pages : List (List Txt)) (j i : Nat),
    (all_page_texts j pages).get? i =
      (pages.get? i).map fun pl => pageSegment (j + i) pl := by
  intro pages
  induction pages with
  | nil => intro j i; rfl
  | cons pl rest ih =>
    intro j i
    cases i with
    | zero => rfl
    | succ i =>
      show (all_page_texts (j + 1) rest).get? i = _
      rw [ih (j + 1) i]
      have harith : j + 1 + i = j + (i + 1) := by omega
      rw [harith]
      rfl

/-! ## Helper lemmas for the counting of page breaks -/

lemma countBreaks_nil : countBreaks [] = 0 := rfl

lemma countBreaks_append (a b : List DocItem) :
    countBreaks (a ++ b) = countBreaks a + countBreaks b :=
  List.countP_append _ _ _

lemma countBreaks_map_para (shape display : Txt → Txt) (ls : List Txt) :
    countBreaks (ls.map (add_arabic_paragraph shape display)) = 0 := by
  unfold countBreaks
  rw [List.countP_map]
  refine List.countP_eq_zero.mpr ?_
  intro l _
  simp [Function.comp, add_arabic_paragraph, isBreak]

lemma countBreaks_pageItems (shape display : Txt → Txt) (n i : Nat) (pl : List Txt) :
    countBreaks (pageItems shape display n i pl) =
      if (page_text pl).isEmpty then 0 else if i < n then 1 else 0 := by
  unfold pageItems
  split
  · rfl
  · rw [countBreaks_append, countBreaks_map_para]
    split
    · rfl
    · rfl

lemma docBody_countBreaks (shape display : Txt → Txt) :
    ∀ (pages : List (List Txt)) (i n : Nat), i + pages.length = n + 1 →
      countBreaks (docBody shape display n i pages) =
        pages.dropLast.countP fun pl => !(page_text pl).isEmpty := by
  intro pages
  induction pages with
  | nil => intro i n _; rfl
  | cons pl rest ih =>
    intro i n h
    cases rest with
    | nil =>
      have hi : i = n := by
        simp only [List.length_cons, List.length_nil] at h; omega
      subst hi
      simp only [docBody, List.append_nil]
      rw [countBreaks_pageItems]
      simp [Nat.lt_irrefl]
    | cons q rest' =>
      have hi : i < n := by
        simp only [List.length_cons] at h; omega
      have hstep : docBody shape display n i (pl :: q :: rest') =
          pageItems shape display n i pl ++
            docBody shape display n (i + 1) (q :: rest') := rfl
      rw [hstep, countBreaks_append, countBreaks_pageItems,
        ih (i + 1) n (by simp only [List.length_cons] at h ⊢; omega)]
      have hdl : (pl :: q :: rest').dropLast = pl :: (q :: rest').dropLast := rfl
      rw [hdl, List.countP_cons]
      cases hE : (page_text pl).isEmpty <;> simp [hi, Nat.add_comm]

lemma processPages_first_error (shape display : Txt → Txt) (e : EngineError)
    (post : List (Except EngineError (Option (List NativeLine)))) :
    ∀ (pre : List (Except EngineError (Option (List NativeLine)))) (n i : Nat),
      (∀ r ∈ pre, ∃ v, r = Except.ok v) →
      processPages shape display n i (pre ++ Except.error e :: post) = Except.error e := by
  intro pre
  induction pre with
  | nil => intro n i _; rfl
  | cons r pre ih =>
    intro n i h
    obtain ⟨v, rfl⟩ := h r (List.mem_cons_self r pre)
    have hrec := ih n (i + 1) fun r hr => h r (List.mem_cons_of_mem _ hr)
    simp only [List.cons_append, processPages, run_ocr_on_image]
    rw [show pre.append (Except.error e :: post) = pre ++ Except.error e :: post from rfl]
    rw [hrec]

/-! ## Helper lemmas about the modelled shaping and bidi algorithms -/

lemma presForms_eq_none (c : Char) (h : isArabicChar c = false) : presForms c = none := by
  have h1 : ¬ c = Char.ofNat 0x0627 := by
    rintro rfl; exact absurd h (by decide)
  have h2 : ¬ c = Char.ofNat 0x0628 := by
    rintro rfl; exact absurd h (by decide)
  have h3 : ¬ c = Char.ofNat 0x0633 := by
    rintro rfl; exact absurd h (by decide)
  have h4 : ¬ c = Char.ofNat 0x0644 := by
    rintro rfl; exact absurd h (by decide)
  have h5 : ¬ c = Char.ofNat 0x0645 := by
    rintro rfl; exact absurd h (by decide)
  simp only [presForms, if_neg h1, if_neg h2, if_neg h3, if_neg h4, if_neg h5]

lemma shapeGlyph_id (b nb : Bool) (c : Char) (h : presForms c = none) :
    shapeGlyph b c nb = c := by
  unfold shapeGlyph
  rw [h]

lemma shapeChars_id (s : Txt) (h : ∀ c ∈ s, isArabicChar c = false) :
    ∀ b, shapeChars b s = s := by
  induction s with
  | nil => intro b; rfl
  | cons c t ih =>
    intro b
    have hc := presForms_eq_none c (h c (List.mem_cons_self c t))
    simp only [shapeChars]
    rw [shapeGlyph_id _ _ c hc,
      ih (fun x hx => h x (List.mem_cons_of_mem _ hx)) (connectsForward c)]

lemma firstStrong_no_r : ∀ s : Txt, (∀ c ∈ s, isArabicChar c = false) →
    firstStrong s ≠ some true := by
  intro s
  induction s with
  | nil => intro _ hc; cases hc
  | cons c t ih =>
    intro h hc
    have hcR : bidiR c = false := h c (List.mem_cons_self c t)
    simp only [firstStrong] at hc
    rw [hcR] at hc
    simp only [Bool.false_eq_true, if_false] at hc
    by_cases hL : bidiL c = true
    · rw [if_pos hL] at hc
      cases hc
    · rw [if_neg hL] at hc
      exact ih (fun x hx => h x (List.mem_cons_of_mem _ hx)) hc

lemma baseLevel_zero (s : Txt) (h : ∀ c ∈ s, isArabicChar c = false) :
    baseLevel s = 0 := by
  unfold baseLevel
  cases hf : firstStrong s with
  | none => rfl
  | some b =>
    cases b with
    | true => exact absurd hf (firstStrong_no_r s h)
    | false => rfl

lemma charLevel_zero (c : Char) (h : isArabicChar c = false) : charLevel 0 c = 0 := by
  unfold charLevel
  rw [show bidiR c = false from h]
  by_cases hL : bidiL c = true <;> simp [hL]

lemma revRunsAux_id (k : Nat) : ∀ l : List (Char × Nat),
    (∀ x ∈ l, x.2 < k) → revRunsAux k [] l = l := by
  intro l
  induction l with
  | nil => intro _; rfl
  | cons x t ih =>
    intro h
    have hx : ¬ k ≤ x.2 := Nat.not_le.mpr (h x (List.mem_cons_self x t))
    simp only [revRunsAux, if_neg hx]
    rw [ih fun y hy => h y (List.mem_cons_of_mem _ hy)]
    rfl

lemma map_level_zero (s : Txt) (h : ∀ c ∈ s, isArabicChar c = false) :
    s.map (fun c => (c, charLevel 0 c)) = s.map fun c => ((c : Char), (0 : Nat)) := by
  induction s with
  | nil => rfl
  | cons a t ih =>
    simp only [List.map_cons]
    rw [charLevel_zero a (h a (List.mem_cons_self a t)),
      ih fun x hx => h x (List.mem_cons_of_mem _ hx)]

/-! ## Claims -/

/-- C1 counterexample: a two-page document whose first page yielded no
text.  The claim requires a page break after page 1 (a non-last page,
"including after a page that yielded no text"), but the assembled
document contains no page break at all: the break is only emitted inside
the `if page_text:` branch (src lines 153–162). -/
theorem c1_counterexample :
    DocItem.pageBreak ∉ docAssemble shapeModel displayModel ['f'] [[], [['a']]] := by
  decide

/-- C1 amended: a page break is inserted after every non-last page that
yielded text; a non-last page with no text is not followed by a page
break.  Formally, the number of page breaks in the assembled document
equals the number of non-last pages whose page text is non-empty. -/
theorem c1_page_breaks_only_after_text_pages (shape display : Txt → Txt)
    (name : Txt) (pages : List (List Txt)) :
    countBreaks (docAssemble shape display name pages) =
      pages.dropLast.countP fun pl => !(page_text pl).isEmpty := by
  unfold docAssemble
  have hc : countBreaks
      (DocItem.heading ("Extracted from: ".data ++ name) 1 ::
        docBody shape display pages.length 1 pages) =
      countBreaks (docBody shape display pages.length 1 pages) := by
    unfold countBreaks
    rw [List.countP_cons]
    simp [isBreak]
  rw [hc]
  exact docBody_countBreaks shape display pages 1 pages.length (by omega)

/-- C2 counterexample: the engine call raises on page 2 of 3.  The claim
says the exception is not propagated and a 3-page document is still
produced; in the code `ocr.ocr` (src line 64) is not wrapped in any
`try`/`except`, so the exception aborts the whole run and no document is
produced. -/
theorem c2_counterexample :
    processDocument shapeModel displayModel ['f']
        [Except.ok (some [NativeLine.ok () ['a'] 1]),
         Except.error EngineError.engineFailure,
         Except.ok (some [NativeLine.ok () ['b'] 1])] =
      Except.error EngineError.engineFailure := rfl

/-- C2 amended: a malformed individual entry of the engine result is
skipped (the inner `try`/`except`, src lines 67–73) and the remaining
entries are still processed; but an exception from the engine call itself
propagates out of the per-page recognition and aborts the whole document
run, which produces no document at all. -/
theorem c2_engine_error_propagates (shape display : Txt → Txt) (name : Txt)
    (pre : List (Except EngineError (Option (List NativeLine))))
    (e : EngineError)
    (post : List (Except EngineError (Option (List NativeLine))))
    (h : ∀ r ∈ pre, ∃ v, r = Except.ok v) :
    processDocument shape display name (pre ++ Except.error e :: post) =
        Except.error e ∧
      ∀ l₁ l₂, extractLines (l₁ ++ NativeLine.malformed :: l₂) =
        extractLines (l₁ ++ l₂) := by
  constructor
  · unfold processDocument
    rw [processPages_first_error shape display e post pre _ 1 h]
  · intro l₁ l₂
    simp [extractLines, List.filterMap_append, extractLine]

theorem c2_engine_error_propagates_witness :
    processDocument shapeModel displayModel []
        ([Except.ok none] ++ Except.error EngineError.engineFailure :: []) =
        Except.error EngineError.engineFailure ∧
      extractLines ([] ++ NativeLine.malformed :: []) = extractLines ([] ++ []) := by
  have h := c2_engine_error_propagates shapeModel displayModel []
    [Except.ok none] EngineError.engineFailure []
    (by
      intro r hr
      rw [List.mem_singleton] at hr
      exact ⟨none, hr⟩)
  exact ⟨h.1, h.2 [] []⟩

/-- C4 counterexample: two engine results that differ only in the
reported confidence (1/2 versus 9/10) produce identical document items
after extraction, shaping and reordering; hence the confidence value is
not carried through to the ShapedLine (it is discarded when the adapter
reads only `line[1][0]`, src line 68). -/
theorem c4_counterexample :
    pageItems shapeModel displayModel 1 1
        (extractLines [NativeLine.ok () ['h', 'i'] (1 / 2)]) =
      pageItems shapeModel displayModel 1 1
        (extractLines [NativeLine.ok () ['h', 'i'] (9 / 10)]) ∧
    (1 / 2 : ℚ) ≠ 9 / 10 := by
  exact ⟨rfl, by norm_num⟩

/-- C4 amended: the recognition adapter extracts only the text of each
native line and discards the confidence before the shaping/reordering
stage, so the stage never observes (and a fortiori never alters) any
confidence value, and no confidence is carried to the ShapedLine. -/
theorem c4_confidence_discarded (b : Unit) (t : Txt) (c c' : ℚ) :
    extractLine (NativeLine.ok b t c) = extractLine (NativeLine.ok b t c') := rfl

/-- C5 counterexample: a two-page document whose second (final) page
yielded no text.  The page break emitted after page 1 (src line 162) is
the last item of the assembled document, so the Document does end with a
trailing page break, contradicting the claim's parenthetical. -/
theorem c5_counterexample :
    (docAssemble shapeModel displayModel ['f'] [[['a']], []]).getLast? =
      some DocItem.pageBreak := by
  decide

/-- C5 amended: no page break is emitted while processing the final page
itself (the guard `page_num < len(images)`, src line 161); however, when
the final page has no text, the document may still end with the page
break emitted after an earlier text-bearing page. -/
theorem c5_no_break_from_last_page (shape display : Txt → Txt) (n : Nat)
    (pl : List Txt) :
    DocItem.pageBreak ∉ pageItems shape display n n pl := by
  unfold pageItems
  split
  · simp
  · intro h
    rcases List.mem_append.mp h with h1 | h2
    · rcases List.mem_map.mp h1 with ⟨l, _, hl⟩
      simp [add_arabic_paragraph] at hl
    · rw [if_neg (Nat.lt_irrefl n)] at h2
      cases h2

/-- C7: the temporary image file handed to the engine is released on
every exit path of `run_ocr_on_image`: engine failure, empty result and
successful recognition alike (the `try`/`finally` of src lines 63–76). -/
theorem c7_temp_file_released
    (engineCall : Except EngineError (Option (List NativeLine))) :
    (run_ocr_on_image engineCall).tempReleased = true := by
  cases engineCall <;> rfl

/-- C9: every paragraph emitted into the document carries the one
constant formatting — RTL direction, RIGHT alignment, line spacing 1.15,
font size 12 pt, and the first (only) entry of the font fallback chain as
the primary font — independent of the input text. -/
theorem c9_constant_formatting (shape display : Txt → Txt) (name : Txt)
    (pages : List (List Txt)) :
    (∀ t fmt, DocItem.para t fmt ∈ docAssemble shape display name pages →
        fmt = arabicFormatting) ∧
      arabicFormatting =
        ⟨true, Alignment.right, 1.15, 12, "Arabic Typesetting"⟩ ∧
      fontFallbackChain.head? = some arabicFormatting.fontName := by
  refine ⟨?_, rfl, rfl⟩
  intro t fmt hmem
  rcases List.mem_cons.mp hmem with hh | hb
  · cases hh
  · clear hmem
    revert hb
    generalize pages.length = n
    generalize 1 = i
    induction pages generalizing i with
    | nil => intro hb; cases hb
    | cons pl rest ih =>
      intro hb
      rcases List.mem_append.mp hb with h1 | h2
      · revert h1
        unfold pageItems
        split
        · intro h1; cases h1
        · intro h1
          rcases List.mem_append.mp h1 with ha | hc
          · rcases List.mem_map.mp ha with ⟨l, _, hl⟩
            unfold add_arabic_paragraph at hl
            cases hl
            rfl
          · revert hc
            split
            · intro hc
              rw [List.mem_singleton] at hc
              cases hc
            · intro hc; cases hc
      · exact ih (i + 1) h2

theorem c9_constant_formatting_witness :
    DocItem.para (displayModel (shapeModel ['a'])) arabicFormatting ∈
        docAssemble shapeModel displayModel ['n'] [[['a']]] ∧
      arabicFormatting = arabicFormatting := by
  have hdoc : docAssemble shapeModel displayModel ['n'] [[['a']]] =
      [DocItem.heading ("Extracted from: ".data ++ ['n']) 1,
       DocItem.para (displayModel (shapeModel ['a'])) arabicFormatting] := rfl
  have hmem : DocItem.para (displayModel (shapeModel ['a'])) arabicFormatting ∈
      docAssemble shapeModel displayModel ['n'] [[['a']]] := by
    rw [hdoc]
    exact List.mem_cons_of_mem _ (List.mem_cons_self _ _)
  exact ⟨hmem,
    (c9_constant_formatting shapeModel displayModel ['n'] [[['a']]]).1 _ _ hmem⟩

/-- C10: the single document-level heading (src line 143) has text
exactly `"Extracted from: "` followed by the source filename, in logical
order (neither `shape` nor `display` is applied to it), and — being a
heading item, not a formatted paragraph — it receives none of the
RTL/RIGHT/1.15/12pt paragraph formatting. -/
theorem c10_heading_logical_text (shape display : Txt → Txt) (name : Txt)
    (pages : List (List Txt)) :
    (docAssemble shape display name pages).head? =
        some (DocItem.heading ("Extracted from: ".data ++ name) 1) ∧
      ∀ t fmt,
        DocItem.heading ("Extracted from: ".data ++ name) 1 ≠ DocItem.para t fmt :=
  ⟨rfl, fun _ _ h => DocItem.noConfusion h⟩

/-- C3 counterexample: a one-page document whose single line is the
Arabic letter beh (U+0628).  The transcript contains the raw logical-order
line (src line 154 uses `page_lines` directly), while the claim's
transcript uses the shaped-and-reordered line (beh's isolated presentation
form U+FE8F), so the two differ. -/
theorem c3_counterexample :
    combined_text [[[Char.ofNat 0x0628]]] ≠
      specTranscriptShaped shapeModel displayModel [[[Char.ofNat 0x0628]]] := by
  decide

/-- C3 amended: the transcript equals the per-page concatenation of the
`"— Page N —"` header followed by that page's raw recognized
(whitespace-stripped) lines joined with newlines — not the shaped lines,
which go only into the Document — or the `"[No text detected]"` marker
when the page has no text, with consecutive pages separated by one blank
line.  The hypothesis (each line non-empty with non-whitespace ends) holds
for every line emitted by the adapter (`extractLine_good`). -/
theorem c3_transcript_uses_raw_lines (pages : List (List Txt))
    (h : ∀ pl ∈ pages, ∀ l ∈ pl, goodLineB l = true) :
    combined_text pages = specTranscriptRaw pages := by
  rw [combined_text_eq_joinSep, all_page_texts_eq_raw pages 1 h]
  rfl

theorem c3_transcript_uses_raw_lines_witness :
    combined_text [[['a', 'b']], []] = specTranscriptRaw [[['a', 'b']], []] :=
  c3_transcript_uses_raw_lines [[['a', 'b']], []] (by decide)

/-- C6: a page with no recognized text contributes no document items at
all (in particular zero paragraphs), yet contributes exactly one
transcript segment, which is the header followed by the literal
`"[No text detected]"` marker; and the transcript has exactly one segment
per page, so numbering stays contiguous `1..N`. -/
theorem c6_empty_page_contribution (shape display : Txt → Txt)
    (pages : List (List Txt)) (i : Nat) (h : i < pages.length)
    (he : pages.get ⟨i, h⟩ = []) :
    pageItems shape display pages.length (i + 1) (pages.get ⟨i, h⟩) = [] ∧
      (all_page_texts 1 pages).get? i =
        some (pageHeader (i + 1) ++ '\n' :: markerText) ∧
      (all_page_texts 1 pages).length = pages.length := by
  refine ⟨?_, ?_, all_page_texts_length pages 1⟩
  · rw [he]
    rfl
  · rw [all_page_texts_get?, List.get?_eq_get h, he]
    have harith : 1 + i = i + 1 := Nat.add_comm 1 i
    rw [harith]
    rfl

theorem c6_empty_page_contribution_witness :
    pageItems shapeModel displayModel 2 2 ([] : List Txt) = [] ∧
      (all_page_texts 1 [[['a']], []]).get? 1 =
        some (pageHeader 2 ++ '\n' :: markerText) ∧
      (all_page_texts 1 [[['a']], []]).length = 2 :=
  c6_empty_page_contribution shapeModel displayModel [[['a']], []] 1
    (by decide) rfl

/-- C8: applying contextual shaping followed by bidirectional reordering
to a string with no Arabic-range characters returns it unchanged (shaping
touches only Arabic letters; with no strong-right character the paragraph
level is 0, every character is at level 0 and rule L2 reverses nothing). -/
theorem c8_nonarabic_passthrough (s : Txt)
    (h : ∀ c ∈ s, isArabicChar c = false) :
    displayModel (shapeModel s) = s := by
  have hs : shapeModel s = s := shapeChars_id s h false
  rw [hs]
  unfold displayModel
  rw [baseLevel_zero s h, map_level_zero s h]
  unfold revRuns
  have hlv : ∀ x ∈ s.map fun c => ((c : Char), (0 : Nat)), x.2 < 2 := by
    intro x hx
    rcases List.mem_map.mp hx with ⟨c, _, rfl⟩
    show (0 : Nat) < 2
    decide
  have hlv1 : ∀ x ∈ s.map fun c => ((c : Char), (0 : Nat)), x.2 < 1 := by
    intro x hx
    rcases List.mem_map.mp hx with ⟨c, _, rfl⟩
    show (0 : Nat) < 1
    decide
  rw [revRunsAux_id 2 _ hlv, revRunsAux_id 1 _ hlv1, List.map_map]
  exact List.map_id s

theorem c8_nonarabic_passthrough_witness :
    displayModel (shapeModel "abc 123".data) = "abc 123".data :=
  c8_nonarabic_passthrough "abc 123".data (by decide)

end ArabicOcr
